import Mathlib

/-!
Verification of the schema-filtering core of prisma-client-go
(src/generator/schema_parser.go).

The Go file is shallowly embedded below.  Go strings are Lean strings
(lists of characters); the helpers from the Go standard library
(strings.TrimSpace, strings.HasPrefix, strings.Fields, strings.Split,
strings.Join, strings.Index and strings.Contains on a one-character
needle) are reimplemented as executable Lean functions so that every
definition reduces inside the kernel.  Literal brace characters inside
string literals are written with the hexadecimal escapes \x7b and \x7d,
and the apostrophe with \x27; these denote exactly the characters of the
Go source.
-/

/-- Whitespace predicate of unicode.IsSpace, used by strings.TrimSpace and
strings.Fields.  It covers the ASCII space classes and the Latin-1 and
White_Space code points recognised by Go. -/
def goIsSpace (c : Char) : Bool :=
  c = ' ' || c = '\t' || c = '\n' || c = Char.ofNat 11 || c = Char.ofNat 12 ||
  c = '\r' || c = Char.ofNat 0x85 || c = Char.ofNat 0xA0 ||
  c = Char.ofNat 0x1680 ||
  (Char.ofNat 0x2000 ≤ c && c ≤ Char.ofNat 0x200A) ||
  c = Char.ofNat 0x2028 || c = Char.ofNat 0x2029 || c = Char.ofNat 0x202F ||
  c = Char.ofNat 0x205F || c = Char.ofNat 0x3000

/-- strings.TrimSpace: remove leading and trailing whitespace. -/
def trimSpace (s : String) : String :=
  ⟨((s.data.dropWhile goIsSpace).reverse.dropWhile goIsSpace).reverse⟩

/-- List-level starts-with test (the character sequence of the needle heads
the character sequence of the haystack). -/
def listIsPre : List Char → List Char → Bool
  | [], _ => true
  | _ :: _, [] => false
  | a :: as, b :: bs => a == b && listIsPre as bs

/-- strings.HasPrefix. -/
def strStartsWith (s pre : String) : Bool :=
  listIsPre pre.data s.data

/-- Accumulator loop of strings.Fields: split around runs of whitespace. -/
def fieldsAux : List Char → List Char → List String
  | acc, [] => if acc.isEmpty then [] else [⟨acc.reverse⟩]
  | acc, c :: rest =>
    if goIsSpace c then
      if acc.isEmpty then fieldsAux [] rest
      else ⟨acc.reverse⟩ :: fieldsAux [] rest
    else fieldsAux (c :: acc) rest

/-- strings.Fields. -/
def fields (s : String) : List String :=
  fieldsAux [] s.data

/-- One-character strings.Contains / strings.Index needle test. -/
def containsChar (s : String) (c : Char) : Bool :=
  s.data.contains c

/-- Accumulator loop of strings.Split(s, newline). -/
def splitLinesAux : List Char → List Char → List String
  | acc, [] => [⟨acc.reverse⟩]
  | acc, c :: rest =>
    if c = '\n' then ⟨acc.reverse⟩ :: splitLinesAux [] rest
    else splitLinesAux (c :: acc) rest

/-- strings.Split(s, newline), as used on the schema content. -/
def splitLines (s : String) : List String :=
  splitLinesAux [] s.data

/-- strings.Join(lines, newline). -/
def joinLines : List String → String
  | [] => ""
  | [s] => s
  | s :: rest => s ++ "\n" ++ joinLines rest

/-- SchemaBlock of schema_parser.go: a typed top-level block of the schema.
Field order: Type, Name, Content, StartPos, EndPos. -/
structure SchemaBlock where
  type : String
  name : String
  content : String
  startPos : Nat
  endPos : Nat
deriving DecidableEq

/-- SchemaParser of schema_parser.go: holds the schema content. -/
structure SchemaParser where
  content : String
deriving DecidableEq

/-- NewSchemaParser of schema_parser.go. -/
def NewSchemaParser (content : String) : SchemaParser :=
  ⟨content⟩

/-- The recognised block keywords, in the order the Go code tries them. -/
def blockTypes : List String :=
  ["generator", "datasource", "model", "enum"]

/-- Character loop of parseBlockAt over one line: increment the brace count
on an opening brace, decrement on a closing brace, and signal (none) the
moment a decrement brings the count to exactly zero; otherwise return the
updated count. -/
def scanLineChars : Int → List Char → Option Int
  | c, [] => some c
  | c, ch :: rest =>
    if ch = '{' then scanLineChars (c + 1) rest
    else if ch = '}' then
      if c - 1 = 0 then none else scanLineChars (c - 1) rest
    else scanLineChars c rest

/-- Line loop of parseBlockAt from the start line onward.  Returns
(some r, 0) when the brace count first returns to zero by a decrement on
the line with relative index r (the goto blockComplete jump of the Go
code), and (none, finalCount) when the input is exhausted first. -/
def scanBlockLines : Int → List String → Option Nat × Int
  | c, [] => (none, c)
  | c, l :: rest =>
    match scanLineChars c l.data with
    | none => (some 0, 0)
    | some c2 =>
      match scanBlockLines c2 rest with
      | (some r, _) => (some (r + 1), 0)
      | (none, d) => (none, d)

/-- Net brace delta of a character list, starting from a given count:
plus one per opening brace, minus one per closing brace. -/
def lineDelta : Int → List Char → Int
  | c, [] => c
  | c, ch :: rest =>
    if ch = '{' then lineDelta (c + 1) rest
    else if ch = '}' then lineDelta (c - 1) rest
    else lineDelta c rest

/-- Brace count accumulated over a list of lines. -/
def cumCount (c : Int) (ls : List String) : Int :=
  ls.foldl (fun a l => lineDelta a l.data) c

/-- Whether, starting from count c, some closing brace in the given
character list brings the running count to exactly zero. -/
def lineCloses : Int → List Char → Bool
  | _, [] => false
  | c, ch :: rest =>
    if ch = '{' then lineCloses (c + 1) rest
    else if ch = '}' then (c - 1 == 0) || lineCloses (c - 1) rest
    else lineCloses c rest

/-- parseBlockAt of schema_parser.go, with the returned end line expressed
relative to startLine (the Go function returns the absolute index
startLine + r; parseBlockAt below recovers it).  Steps, exactly as in the
source: trim the start line; find the first keyword of blockTypes that
heads it followed by a space; take the second whitespace-separated field
as the name; require an opening brace on the trimmed start line or on some
later raw line; then run the brace-count loop from the start line.  If the
count returns to zero by a decrement on relative line r, the block spans
the lines up to r.  If the lines run out, the Go loop falls through with
endLine still equal to startLine: when the final count is zero it still
returns a block whose content is all remaining lines, otherwise it fails. -/
def parseBlockAtRel (lines : List String) (startLine : Nat) :
    Option (SchemaBlock × Nat) :=
  match blockTypes.find?
      (fun bt => strStartsWith (trimSpace (lines.getD startLine "")) (bt ++ " ")) with
  | none => none
  | some bt =>
    if containsChar (trimSpace (lines.getD startLine "")) '{'
        || (lines.drop (startLine + 1)).any (fun l => containsChar l '{') then
      match scanBlockLines 0 (lines.drop startLine) with
      | (some r, _) =>
        some (⟨bt,
              if 2 ≤ (fields (trimSpace (lines.getD startLine ""))).length
              then (fields (trimSpace (lines.getD startLine ""))).getD 1 ""
              else "",
              joinLines ((lines.drop startLine).take (r + 1)),
              startLine, startLine + r⟩, r)
      | (none, c) =>
        if c = 0 then
          some (⟨bt,
                if 2 ≤ (fields (trimSpace (lines.getD startLine ""))).length
                then (fields (trimSpace (lines.getD startLine ""))).getD 1 ""
                else "",
                joinLines (lines.drop startLine),
                startLine, startLine⟩, 0)
        else none
    else none

/-- parseBlockAt of schema_parser.go with the absolute end line, exactly as
the Go function returns it. -/
def parseBlockAt (lines : List String) (startLine : Nat) :
    Option (SchemaBlock × Nat) :=
  (parseBlockAtRel lines startLine).map (fun br => (br.1, startLine + br.2))

/-- Cursor loop of parseBlocks, with explicit fuel so that the definition
is structurally recursive and reduces in the kernel.  One unit of fuel is
spent per loop iteration; since the cursor strictly advances, a fuel of
lines.length is always sufficient (parseBlocksAux_fuel below).  Blank
lines are skipped, comment lines become one-line comment blocks,
recognised declarations become blocks via parseBlockAtRel (the cursor
jumps past the returned end line), and anything else becomes a one-line
other block. -/
def parseBlocksAux (lines : List String) : Nat → Nat → List SchemaBlock
  | 0, _ => []
  | fuel + 1, i =>
    if i < lines.length then
      if trimSpace (lines.getD i "") = "" then
        parseBlocksAux lines fuel (i + 1)
      else if strStartsWith (trimSpace (lines.getD i "")) "//" then
        ⟨"comment", "", lines.getD i "", i, i⟩ :: parseBlocksAux lines fuel (i + 1)
      else
        match parseBlockAtRel lines i with
        | some (b, r) => b :: parseBlocksAux lines fuel (i + r + 1)
        | none =>
          ⟨"other", "", lines.getD i "", i, i⟩ :: parseBlocksAux lines fuel (i + 1)
    else []

/-- The block sequence the scanner emits from cursor position i. -/
def parseBlocksFrom (lines : List String) (i : Nat) : List SchemaBlock :=
  parseBlocksAux lines lines.length i

/-- parseBlocks of schema_parser.go.  The Go method returns the block slice
together with an error value that is nil on its only return statement; the
pair mirrors that signature. -/
def parseBlocks (p : SchemaParser) : List SchemaBlock × Option String :=
  (parseBlocksFrom (splitLines p.content) 0, none)

/-- Body of the filtering loop of FilterByGenerator: the switch on the
block type.  A generator block is appended only when its name matches and
then sets the found flag; datasource, model and enum blocks are always
appended; so is everything else (comments etc.). -/
def filterStep (generatorName : String) (acc : List SchemaBlock × Bool)
    (block : SchemaBlock) : List SchemaBlock × Bool :=
  if block.type == "generator" then
    if block.name == generatorName then (acc.1 ++ [block], true) else acc
  else if block.type == "datasource" || block.type == "model"
      || block.type == "enum" then
    (acc.1 ++ [block], acc.2)
  else
    (acc.1 ++ [block], acc.2)

/-- The filtering loop of FilterByGenerator over the scanned blocks. -/
def filterBlocks (blocks : List SchemaBlock) (generatorName : String) :
    List SchemaBlock × Bool :=
  blocks.foldl (filterStep generatorName) ([], false)

/-- Predicate equivalent of one filterStep decision: a block survives the
filter exactly when it is not a generator block or bears the requested
name. -/
def keepPred (generatorName : String) (b : SchemaBlock) : Bool :=
  (b.type != "generator") || (b.name == generatorName)

/-- The message of fmt.Errorf("generator '%s' not found in schema", name). -/
def genNotFoundMsg (generatorName : String) : String :=
  "generator \x27" ++ generatorName ++ "\x27 not found in schema"

/-- Line list built by reconstructSchema: each block content, with an empty
separator line inserted before the next block unless that next block is a
comment or its trimmed content is empty. -/
def reconLines : List SchemaBlock → List String
  | [] => []
  | [b] => [b.content]
  | b :: b2 :: rest =>
    if b2.type ≠ "comment" ∧ trimSpace b2.content ≠ "" then
      b.content :: "" :: reconLines (b2 :: rest)
    else
      b.content :: reconLines (b2 :: rest)

/-- reconstructSchema of schema_parser.go. -/
def reconstructSchema (blocks : List SchemaBlock) : String :=
  joinLines (reconLines blocks)

/-- FilterByGenerator of schema_parser.go.  The Go method returns a string
and an error; the pair (output, optional error message) mirrors that. -/
def FilterByGenerator (p : SchemaParser) (generatorName : String) :
    String × Option String :=
  match parseBlocks p with
  | (_, some err) => ("", some ("failed to parse schema blocks: " ++ err))
  | (blocks, none) =>
    if (filterBlocks blocks generatorName).2 then
      (reconstructSchema (filterBlocks blocks generatorName).1, none)
    else
      ("", some (genNotFoundMsg generatorName))

/-- Whether the brace scan of a block recognised at line i ended by the
goto jump (a closing brace reaching depth zero) rather than by the
degenerate fall-through of the loop. -/
def blockScanCloses (lines : List String) (i : Nat) : Bool :=
  match parseBlockAtRel lines i with
  | some (_, r) => (scanBlockLines 0 (lines.drop i)).1 == some r
  | none => true

/-- Every block the scanner can recognise in the line list is closed by a
closing brace reaching depth zero (no degenerate fall-through block). -/
def wellScanned (lines : List String) : Bool :=
  (List.range lines.length).all (blockScanCloses lines)

/-- The non-blank lines of a line list (blank meaning trimming to empty). -/
def filterNonBlank (ls : List String) : List String :=
  ls.filter (fun l => trimSpace l != "")

/-! ## Basic characterisations of the filter stage -/

/-- Unfolding of FilterByGenerator: the parse stage never errors, so the
result is decided by the found flag of the filtering loop. -/
theorem fbg_eq (p : SchemaParser) (n : String) :
    FilterByGenerator p n =
      if (filterBlocks (parseBlocks p).1 n).2 then
        (reconstructSchema (filterBlocks (parseBlocks p).1 n).1, none)
      else ("", some (genNotFoundMsg n)) := rfl

/-- The filtering fold, with an arbitrary starting accumulator: it appends
exactly the blocks satisfying keepPred, in order, and the flag records
whether a matching generator block occurred. -/
theorem filterBlocks_foldl (n : String) (bs : List SchemaBlock) :
    ∀ (acc : List SchemaBlock) (f : Bool),
      List.foldl (filterStep n) (acc, f) bs =
        (acc ++ bs.filter (keepPred n),
         f || bs.any (fun b => b.type == "generator" && b.name == n)) := by
  induction bs with
  | nil => intro acc f; simp
  | cons b bs ih =>
    intro acc f
    simp only [List.foldl_cons, List.filter_cons, List.any_cons]
    by_cases hg : (b.type == "generator") = true
    · by_cases hn : (b.name == n) = true
      · have hs : filterStep n (acc, f) b = (acc ++ [b], true) := by
          simp [filterStep, hg, hn]
        have hk : keepPred n b = true := by simp [keepPred, hn]
        rw [hs, ih]
        simp [hk, hg, hn]
      · have hs : filterStep n (acc, f) b = (acc, f) := by
          simp [filterStep, hg, hn]
        have hk : keepPred n b = false := by
          simp [keepPred, hn, hg]
          simpa using hg
        rw [hs, ih]
        simp [hk, hg, hn]
    · have hs : filterStep n (acc, f) b = (acc ++ [b], f) := by
        simp [filterStep, hg]
      have hk : keepPred n b = true := by
        simp [keepPred, hg]
        exact Or.inl (by simpa using hg)
      rw [hs, ih]
      simp [hk, hg]

/-- filterBlocks computed in closed form: a List.filter by keepPred plus a
List.any for the found flag. -/
theorem filterBlocks_eq (bs : List SchemaBlock) (n : String) :
    filterBlocks bs n =
      (bs.filter (keepPred n),
       bs.any (fun b => b.type == "generator" && b.name == n)) := by
  unfold filterBlocks
  rw [filterBlocks_foldl]
  simp

/-! ## C2, C10: the errors FilterByGenerator can return -/

/-- C2 (confirmed): FilterByGenerator returns the generator-not-found error
(whose message names the requested generator) together with an empty
output string if and only if no generator block of the scanned input bears
the requested name; when some generator block matches, no such error is
returned. -/
theorem c2_not_found_iff_no_matching_generator (p : SchemaParser) (n : String) :
    (FilterByGenerator p n = ("", some (genNotFoundMsg n)) ↔
      ∀ b ∈ (parseBlocks p).1, ¬(b.type = "generator" ∧ b.name = n)) ∧
    genNotFoundMsg n = "generator \x27" ++ n ++ "\x27 not found in schema" := by
  refine ⟨?_, rfl⟩
  rw [fbg_eq]
  by_cases h : (filterBlocks (parseBlocks p).1 n).2
  · rw [filterBlocks_eq] at h
    simp only [List.any_eq_true, Bool.and_eq_true, beq_iff_eq] at h
    obtain ⟨b, hb, h1, h2⟩ := h
    constructor
    · intro he
      have := congrArg Prod.snd he
      rw [if_pos] at this
      · exact absurd this (by simp)
      · rw [filterBlocks_eq]
        simp only [List.any_eq_true, Bool.and_eq_true, beq_iff_eq]
        exact ⟨b, hb, h1, h2⟩
    · intro hall
      exact absurd ⟨h1, h2⟩ (hall b hb)
  · rw [filterBlocks_eq] at h
    simp only [List.any_eq_true, Bool.and_eq_true, beq_iff_eq, not_exists] at h
    push_neg at h
    constructor
    · intro _ b hb hc
      exact h b hb hc.1 hc.2
    · intro _
      rw [if_neg]
      rw [filterBlocks_eq]
      simp only [List.any_eq_true, Bool.and_eq_true, beq_iff_eq]
      push_neg
      intro b hb h1
      exact h b hb h1

/-- C10 (confirmed): parseBlocks always returns a nil error (the scanner is
total), so the parse-failure branch of FilterByGenerator is unreachable
and the only error it can ever return is the generator-not-found one. -/
theorem c10_scanner_total_only_not_found_error (p : SchemaParser) (n : String) :
    (parseBlocks p).2 = none ∧
      ((FilterByGenerator p n).2 = none ∨
        (FilterByGenerator p n).2 = some (genNotFoundMsg n)) := by
  refine ⟨rfl, ?_⟩
  rw [fbg_eq]
  by_cases h : (filterBlocks (parseBlocks p).1 n).2 <;> simp [h]

/-! ## Counterexamples to the claims the code refutes -/

/-- C1 counterexample: the input contains the recognised declaration
"model Foo" (line 1) whose opening brace is never matched before the input
ends (the brace scan from that line falls through with count 1), yet
FilterByGenerator for the present generator g succeeds and returns a
non-empty schema: no unbalanced-block error is raised and the operation
does not fail. -/
theorem c1_cx_unbalanced_block_succeeds :
    (blockTypes.find? (fun bt =>
        strStartsWith
          (trimSpace ((splitLines "generator g \x7b p = 1 \x7d\nmodel Foo \x7b\n  id Int").getD 1 ""))
          (bt ++ " "))).isSome = true ∧
    scanBlockLines 0
        ((splitLines "generator g \x7b p = 1 \x7d\nmodel Foo \x7b\n  id Int").drop 1) =
      (none, 1) ∧
    (FilterByGenerator ⟨"generator g \x7b p = 1 \x7d\nmodel Foo \x7b\n  id Int"⟩ "g").2 = none ∧
    (FilterByGenerator ⟨"generator g \x7b p = 1 \x7d\nmodel Foo \x7b\n  id Int"⟩ "g").1 ≠ "" := by
  exact ⟨by decide, by decide, by decide, by decide⟩

/-- C3 counterexample: with two generator blocks both named g, filtering
for g succeeds but the output contains two generator blocks, not exactly
one. -/
theorem c3_cx_duplicate_generators :
    (filterBlocks (parseBlocks ⟨"generator g \x7b\x7d\ngenerator g \x7b\x7d"⟩).1 "g").2 = true ∧
    ((filterBlocks (parseBlocks ⟨"generator g \x7b\x7d\ngenerator g \x7b\x7d"⟩).1 "g").1.countP
        (fun b => b.type == "generator")) = 2 := by
  exact ⟨by decide, by decide⟩

/-- C5 counterexample: line 1 of the input is blank, yet it reappears
inside the text of the emitted model block, so blank lines are not dropped
entirely from the scanner output. -/
theorem c5_cx_blank_line_inside_block :
    trimSpace ((splitLines "model M \x7b\n\n\x7d").getD 1 "") = "" ∧
    (parseBlocks ⟨"model M \x7b\n\n\x7d"⟩).1.any
      (fun b => (splitLines b.content).any (fun l => trimSpace l == "")) = true := by
  exact ⟨by decide, by decide⟩

/-- C6 counterexample: on the lines "model Foo \x7d \x7b" and "bar" the
recognised block is returned with end line 0 but its text spans both
lines, so the text is not the original lines from startLine through
endLine (the brace counter returns to zero after an increment on line 0,
but never by a decrement, and the Go loop falls through keeping every
remaining line). -/
theorem c6_cx_degenerate_balance :
    parseBlockAtRel ["model Foo \x7d \x7b", "bar"] 0 =
      some (⟨"model", "Foo", "model Foo \x7d \x7b\nbar", 0, 0⟩, 0) ∧
    "model Foo \x7d \x7b\nbar" ≠
      joinLines ((["model Foo \x7d \x7b", "bar"]).take (0 + 1)) := by
  exact ⟨by decide, by decide⟩

/-- C7 counterexample: the trimmed line "model\tFoo \x7b\x7d" begins with
the keyword model followed by a whitespace character (a tab), yet keyword
recognition fails and the line is classified as other: the code requires
a space character, not arbitrary whitespace, after the keyword. -/
theorem c7_cx_tab_after_keyword :
    strStartsWith (trimSpace "model\tFoo \x7b\x7d") "model" = true ∧
    goIsSpace ((trimSpace "model\tFoo \x7b\x7d").data.getD 5 ' ') = true ∧
    (blockTypes.find? (fun bt =>
        strStartsWith (trimSpace "model\tFoo \x7b\x7d") (bt ++ " "))) = none ∧
    (parseBlocksFrom ["model\tFoo \x7b\x7d"] 0).map (fun b => b.type) = ["other"] := by
  exact ⟨by decide, by decide, by decide, by decide⟩

/-- C9 counterexample: the input has no blank line at all (so collapsing
consecutive blank lines and removing comment-adjacent blank lines both
leave it unchanged), it contains exactly one generator block named g, yet
the pipeline output differs from the input: reconstruction inserts a blank
separator line that was not present, which is a change beyond blank-line
normalization as claimed. -/
theorem c9_cx_separator_inserted :
    ((splitLines "generator g \x7bp=1\x7d\nmodel M \x7bid Int\x7d").all
      (fun l => trimSpace l != "")) = true ∧
    ((parseBlocks ⟨"generator g \x7bp=1\x7d\nmodel M \x7bid Int\x7d"⟩).1.filter
        (fun b => b.type == "generator")).map (fun b => b.name) = ["g"] ∧
    (FilterByGenerator ⟨"generator g \x7bp=1\x7d\nmodel M \x7bid Int\x7d"⟩ "g").2 = none ∧
    (FilterByGenerator ⟨"generator g \x7bp=1\x7d\nmodel M \x7bid Int\x7d"⟩ "g").1 ≠
      "generator g \x7bp=1\x7d\nmodel M \x7bid Int\x7d" := by
  exact ⟨by decide, by decide, by decide, by decide⟩

/-- C3 (corrected, amended): when filtering succeeds, the filtered
sequence contains at least one generator block, every generator block in
it bears the requested name, and the number of generator blocks in the
output equals the number of generator blocks of the input named the
target (so it is exactly one precisely when the input has exactly one
generator block with that name). -/
theorem c3_amended_generators_in_output (p : SchemaParser) (n : String)
    (h : (FilterByGenerator p n).2 = none) :
    (∃ b ∈ (filterBlocks (parseBlocks p).1 n).1, b.type = "generator" ∧ b.name = n) ∧
    (∀ b ∈ (filterBlocks (parseBlocks p).1 n).1, b.type = "generator" → b.name = n) ∧
    (filterBlocks (parseBlocks p).1 n).1.countP (fun b => b.type == "generator") =
      (parseBlocks p).1.countP (fun b => b.type == "generator" && b.name == n) := by
  rw [fbg_eq] at h
  by_cases hf : (filterBlocks (parseBlocks p).1 n).2
  · have hany := hf
    rw [filterBlocks_eq] at hany
    simp only [List.any_eq_true, Bool.and_eq_true, beq_iff_eq] at hany
    obtain ⟨g, hg, hg1, hg2⟩ := hany
    refine ⟨⟨g, ?_, hg1, hg2⟩, ?_, ?_⟩
    · rw [filterBlocks_eq]
      rw [List.mem_filter]
      refine ⟨hg, ?_⟩
      simp [keepPred, hg2]
    · intro b hb hbt
      rw [filterBlocks_eq, List.mem_filter] at hb
      have := hb.2
      simp only [keepPred, hbt, Bool.or_eq_true, bne_iff_ne, ne_eq,
        not_true_eq_false, false_or, beq_iff_eq] at this
      exact this
    · rw [filterBlocks_eq]
      rw [List.countP_filter]
      apply List.countP_congr
      intro b _
      constructor
      · intro hb
        simp only [Bool.and_eq_true, beq_iff_eq] at hb ⊢
        obtain ⟨hb1, hb2⟩ := hb
        refine ⟨hb1, ?_⟩
        simp only [keepPred, hb1, Bool.or_eq_true, bne_iff_ne, ne_eq,
          not_true_eq_false, false_or, beq_iff_eq] at hb2
        exact hb2
      · intro hb
        simp only [Bool.and_eq_true, beq_iff_eq] at hb ⊢
        refine ⟨hb.1, ?_⟩
        simp [keepPred, hb.2]
  · simp [hf] at h

/-- C3 amended witness: the duplicate-generator input instantiates the
amended claim at a concrete schema. -/
theorem c3_amended_wit :
    (∃ b ∈ (filterBlocks (parseBlocks ⟨"generator g \x7b\x7d\ngenerator g \x7b\x7d"⟩).1 "g").1,
        b.type = "generator" ∧ b.name = "g") ∧
    (∀ b ∈ (filterBlocks (parseBlocks ⟨"generator g \x7b\x7d\ngenerator g \x7b\x7d"⟩).1 "g").1,
        b.type = "generator" → b.name = "g") ∧
    (filterBlocks (parseBlocks ⟨"generator g \x7b\x7d\ngenerator g \x7b\x7d"⟩).1 "g").1.countP
        (fun b => b.type == "generator") =
      (parseBlocks ⟨"generator g \x7b\x7d\ngenerator g \x7b\x7d"⟩).1.countP
        (fun b => b.type == "generator" && b.name == "g") :=
  c3_amended_generators_in_output ⟨"generator g \x7b\x7d\ngenerator g \x7b\x7d"⟩ "g" (by decide)

/-- C4 (confirmed): on any scanned block sequence, the filter output is
exactly the List.filter of the input by the predicate keeping every
datasource, model, enum, comment and other block plus the generator
blocks bearing the requested name; being a List.filter it is a
subsequence of the input, in original order, and each retained block
(content included) is byte-for-byte an element of the input. -/
theorem c4_filter_selects_whole_blocks (bs : List SchemaBlock) (n : String)
    (h : ∀ b ∈ bs, b.type ∈
      (["generator", "datasource", "model", "enum", "comment", "other"] : List String)) :
    (filterBlocks bs n).1 =
      bs.filter (fun b =>
        b.type == "datasource" || b.type == "model" || b.type == "enum" ||
        b.type == "comment" || b.type == "other" ||
        (b.type == "generator" && b.name == n)) ∧
    List.Sublist (filterBlocks bs n).1 bs := by
  have h1 : (filterBlocks bs n).1 = bs.filter (keepPred n) := by
    rw [filterBlocks_eq]
  constructor
  · rw [h1]
    apply List.filter_congr
    intro b hb
    have h6 := h b hb
    simp only [List.mem_cons, List.mem_singleton, List.not_mem_nil, or_false] at h6
    rcases h6 with ht | ht | ht | ht | ht | ht <;>
      (cases hm : (b.name == n) <;> simp [keepPred, ht, hm])
  · rw [h1]
    exact List.filter_sublist bs

/-- C4 witness: concrete instantiation on a scanned schema with one
matching and one non-matching generator. -/
theorem c4_wit :
    ((filterBlocks (parseBlocks ⟨"generator a \x7b\x7d\ngenerator b \x7b\x7d\nmodel M \x7b\x7d"⟩).1 "b").1 =
      (parseBlocks ⟨"generator a \x7b\x7d\ngenerator b \x7b\x7d\nmodel M \x7b\x7d"⟩).1.filter
        (fun b =>
          b.type == "datasource" || b.type == "model" || b.type == "enum" ||
          b.type == "comment" || b.type == "other" ||
          (b.type == "generator" && b.name == "b"))) ∧
    List.Sublist
      (filterBlocks (parseBlocks ⟨"generator a \x7b\x7d\ngenerator b \x7b\x7d\nmodel M \x7b\x7d"⟩).1 "b").1
      (parseBlocks ⟨"generator a \x7b\x7d\ngenerator b \x7b\x7d\nmodel M \x7b\x7d"⟩).1 :=
  c4_filter_selects_whole_blocks
    (parseBlocks ⟨"generator a \x7b\x7d\ngenerator b \x7b\x7d\nmodel M \x7b\x7d"⟩).1 "b"
    (by decide)

/-- C2 witness: concrete instantiation of the not-found equivalence. -/
theorem c2_wit :
    (FilterByGenerator ⟨"model M \x7b\x7d"⟩ "g" = ("", some (genNotFoundMsg "g")) ↔
      ∀ b ∈ (parseBlocks ⟨"model M \x7b\x7d"⟩).1, ¬(b.type = "generator" ∧ b.name = "g")) ∧
    genNotFoundMsg "g" = "generator \x27" ++ "g" ++ "\x27 not found in schema" :=
  c2_not_found_iff_no_matching_generator ⟨"model M \x7b\x7d"⟩ "g"

/-- C10 witness: concrete instantiation showing the not-found error arm. -/
theorem c10_wit :
    (parseBlocks ⟨"model M \x7b\x7d"⟩).2 = none ∧
      ((FilterByGenerator ⟨"model M \x7b\x7d"⟩ "g").2 = none ∨
        (FilterByGenerator ⟨"model M \x7b\x7d"⟩ "g").2 = some (genNotFoundMsg "g")) :=
  c10_scanner_total_only_not_found_error ⟨"model M \x7b\x7d"⟩ "g"

/-! ## Structure of the scanner -/

/-- A starts-with test against a cons needle forces the head. -/
theorem listIsPre_cons {a : Char} {as l : List Char}
    (h : listIsPre (a :: as) l = true) :
    ∃ tl, l = a :: tl ∧ listIsPre as tl = true := by
  cases l with
  | nil => simp [listIsPre] at h
  | cons b bs =>
    simp only [listIsPre, Bool.and_eq_true, beq_iff_eq] at h
    exact ⟨bs, by rw [h.1], h.2⟩

/-- listIsPre is exactly the existence of a list completing the needle. -/
theorem listIsPre_iff_append (p : List Char) :
    ∀ l, listIsPre p l = true ↔ ∃ t, l = p ++ t := by
  induction p with
  | nil => intro l; simp [listIsPre]
  | cons a as ih =>
    intro l
    cases l with
    | nil =>
      simp [listIsPre]
    | cons b bs =>
      simp only [listIsPre, Bool.and_eq_true, beq_iff_eq, List.cons_append,
        List.cons.injEq, ih]
      constructor
      · rintro ⟨h1, t, h2⟩; exact ⟨t, h1.symm, h2⟩
      · rintro ⟨t, h1, h2⟩; exact ⟨h1.symm, t, h2⟩

/-- strings.HasPrefix as an append equation on strings. -/
theorem strStartsWith_iff_append (s pre : String) :
    strStartsWith s pre = true ↔ ∃ r, s = pre ++ r := by
  unfold strStartsWith
  rw [listIsPre_iff_append]
  constructor
  · rintro ⟨t, ht⟩
    refine ⟨⟨t⟩, ?_⟩
    cases s with
    | mk d => cases pre with
      | mk dp =>
        simp only [String.data] at ht
        exact congrArg String.mk ht
  · rintro ⟨r, hr⟩
    refine ⟨r.data, ?_⟩
    rw [hr]
    rfl

/-- A trimmed line that starts with a recognised keyword and a space is
non-empty and is not a comment line. -/
theorem keyword_line_shape :
    ∀ bt ∈ blockTypes, ∀ t : String, strStartsWith t (bt ++ " ") = true →
      t ≠ "" ∧ strStartsWith t "//" = false := by
  intro bt hbt t h
  have hmem : bt = "generator" ∨ bt = "datasource" ∨ bt = "model" ∨ bt = "enum" := by
    simpa [blockTypes] using hbt
  have hslash : ∀ (c : Char) (tl : List Char), t.data = c :: tl → ¬ c = '/' →
      t ≠ "" ∧ strStartsWith t "//" = false := by
    intro c tl htl hc
    constructor
    · intro he
      rw [he] at htl
      simp at htl
    · have he : strStartsWith t "//" = listIsPre ('/' :: '/' :: []) t.data := rfl
      rw [he, htl]
      simp only [listIsPre, Bool.and_eq_true, beq_iff_eq]
      cases hq : (('/' : Char) == c) with
      | false => simp
      | true =>
        have hqe : ('/' : Char) = c := by simpa using hq
        exact absurd hqe.symm hc
  rcases hmem with hb | hb | hb | hb <;> subst hb
  · have h2 : listIsPre ('g' :: "enerator ".data) t.data = true := h
    obtain ⟨tl, htl, _⟩ := listIsPre_cons h2
    exact hslash 'g' tl htl (by decide)
  · have h2 : listIsPre ('d' :: "atasource ".data) t.data = true := h
    obtain ⟨tl, htl, _⟩ := listIsPre_cons h2
    exact hslash 'd' tl htl (by decide)
  · have h2 : listIsPre ('m' :: "odel ".data) t.data = true := h
    obtain ⟨tl, htl, _⟩ := listIsPre_cons h2
    exact hslash 'm' tl htl (by decide)
  · have h2 : listIsPre ('e' :: "num ".data) t.data = true := h
    obtain ⟨tl, htl, _⟩ := listIsPre_cons h2
    exact hslash 'e' tl htl (by decide)

/-- parseBlockAtRel fails whenever no recognised keyword heads the trimmed
start line. -/
theorem parseBlockAtRel_none_of_no_keyword (lines : List String) (i : Nat)
    (h : blockTypes.find? (fun bt =>
        strStartsWith (trimSpace (lines.getD i "")) (bt ++ " ")) = none) :
    parseBlockAtRel lines i = none := by
  unfold parseBlockAtRel
  rw [h]

/-- parseBlockAtRel fails whenever the brace scan from the start line runs
out of input with a non-zero count (the unmatched-braces return of the Go
code). -/
theorem parseBlockAtRel_none_unmatched (lines : List String) (i : Nat) (c : Int)
    (hscan : scanBlockLines 0 (lines.drop i) = (none, c)) (hc : c ≠ 0) :
    parseBlockAtRel lines i = none := by
  unfold parseBlockAtRel
  split
  · rfl
  · split
    · split
      · rename_i heq
        rw [hscan] at heq
        exact absurd heq (by simp)
      · rename_i c2 heq
        rw [hscan] at heq
        have hcc : c = c2 := by simpa using heq
        rw [if_neg (by omega)]
    · rfl

/-- Structure of a successful parseBlockAtRel: positions and keyword of the
returned block, and its content according to whether the brace scan closed
by the goto (some r) or fell through with a zero count. -/
theorem parseBlockAtRel_some (lines : List String) (i : Nat) (b : SchemaBlock) (r : Nat)
    (h : parseBlockAtRel lines i = some (b, r)) :
    b.startPos = i ∧ b.endPos = i + r ∧ b.type ∈ blockTypes ∧
    ((scanBlockLines 0 (lines.drop i)).1 = some r ∧
        b.content = joinLines ((lines.drop i).take (r + 1)) ∨
      (scanBlockLines 0 (lines.drop i)).1 = none ∧ r = 0 ∧
        b.content = joinLines (lines.drop i)) := by
  unfold parseBlockAtRel at h
  split at h
  · exact absurd h (by simp)
  · rename_i bt hf
    have hbt : bt ∈ blockTypes := List.mem_of_find?_eq_some hf
    split at h
    · split at h
      · rename_i r2 snd heq
        simp only [Option.some.injEq, Prod.mk.injEq] at h
        obtain ⟨hb, hr⟩ := h
        subst hr
        rw [← hb]
        exact ⟨rfl, rfl, hbt, Or.inl ⟨by rw [heq], rfl⟩⟩
      · rename_i c2 heq
        split at h
        · simp only [Option.some.injEq, Prod.mk.injEq] at h
          obtain ⟨hb, hr⟩ := h
          rw [← hb, ← hr]
          exact ⟨rfl, by simp, hbt, Or.inr ⟨by rw [heq], rfl, rfl⟩⟩
        · exact absurd h (by simp)
    · exact absurd h (by simp)

/-- A goto close of the brace scan happens strictly inside the line list. -/
theorem scanBlockLines_fst_lt (ls : List String) :
    ∀ (c : Int) (r : Nat), (scanBlockLines c ls).1 = some r → r < ls.length := by
  induction ls with
  | nil => intro c r h; simp [scanBlockLines] at h
  | cons l rest ih =>
    intro c r h
    unfold scanBlockLines at h
    split at h
    · have hr : r = 0 := by simpa using h.symm
      subst hr
      simp
    · rename_i c2 hsl
      split at h
      · rename_i r2 snd heq
        have hr : r = r2 + 1 := by simpa using h.symm
        have hlt := ih c2 r2 (by rw [heq])
        simp only [List.length_cons]
        omega
      · rename_i d heq
        simp at h

/-- A successful parseBlockAtRel can only start inside the line list. -/
theorem parseBlockAtRel_some_lt (lines : List String) (i : Nat)
    (x : SchemaBlock × Nat) (h : parseBlockAtRel lines i = some x) :
    i < lines.length := by
  by_contra hge
  have hd : lines.getD i "" = "" := by
    rw [List.getD_eq_getElem?_getD]
    rw [List.getElem?_eq_none (by omega)]
    rfl
  unfold parseBlockAtRel at h
  cases hf : blockTypes.find? (fun bt =>
      strStartsWith (trimSpace (lines.getD i "")) (bt ++ " ")) with
  | none => rw [hf] at h; exact absurd h (by simp)
  | some bt =>
    have hprop := List.find?_some hf
    have hbt := List.mem_of_find?_eq_some hf
    have := (keyword_line_shape bt hbt _ hprop).1
    rw [hd] at this
    exact this rfl

/-- The end position of a successful parseBlockAtRel stays inside the line
list. -/
theorem parseBlockAtRel_endPos_lt (lines : List String) (i : Nat)
    (b : SchemaBlock) (r : Nat) (h : parseBlockAtRel lines i = some (b, r)) :
    i + r < lines.length := by
  have hi := parseBlockAtRel_some_lt lines i _ h
  rcases (parseBlockAtRel_some lines i b r h).2.2.2 with ⟨hsc, _⟩ | ⟨_, hr, _⟩
  · have := scanBlockLines_fst_lt (lines.drop i) 0 r (by
      cases hx : scanBlockLines 0 (lines.drop i) with
      | mk o d => rw [hx] at hsc; simpa using hsc)
    rw [List.length_drop] at this
    omega
  · omega

/-- The cursor loop is insensitive to the fuel as long as the fuel covers
the number of remaining lines (the cursor strictly advances each step). -/
theorem parseBlocksAux_fuel (lines : List String) :
    ∀ (f g i : Nat), lines.length - i ≤ f → lines.length - i ≤ g →
      parseBlocksAux lines f i = parseBlocksAux lines g i := by
  intro f
  induction f with
  | zero =>
    intro g i hf hg
    have hi : ¬ i < lines.length := by omega
    cases g with
    | zero => rfl
    | succ g => simp [parseBlocksAux, hi]
  | succ f ih =>
    intro g i hf hg
    by_cases hi : i < lines.length
    · cases g with
      | zero => omega
      | succ g =>
        simp only [parseBlocksAux, hi, if_true]
        by_cases ht : trimSpace (lines.getD i "") = ""
        · simp only [ht, if_true]
          exact ih g (i + 1) (by omega) (by omega)
        · simp only [ht, if_false]
          by_cases hcm : strStartsWith (trimSpace (lines.getD i "")) "//" = true
          · simp only [hcm, if_true]
            rw [ih g (i + 1) (by omega) (by omega)]
          · simp only [hcm, if_false]
            cases hpb : parseBlockAtRel lines i with
            | none =>
              simp only [hpb]
              rw [ih g (i + 1) (by omega) (by omega)]
            | some br =>
              cases br with
              | mk b r =>
                simp only [hpb]
                rw [ih g (i + 1) (by omega) (by omega),
                  ih g (i + r + 1) (by omega) (by omega)]
    · cases g with
      | zero => simp [parseBlocksAux, hi]
      | succ g => simp [parseBlocksAux, hi]

/-- parseBlocksFrom past the end of the lines is empty. -/
theorem parseBlocksFrom_stop (lines : List String) (i : Nat)
    (hi : ¬ i < lines.length) :
    parseBlocksFrom lines i = [] := by
  unfold parseBlocksFrom
  cases hl : lines.length with
  | zero => rfl
  | succ m =>
    simp only [parseBlocksAux]
    rw [if_neg hi]

/-- One unfolding of the scanner cursor loop at an in-range position,
expressed with canonical fuel on both sides. -/
theorem parseBlocksFrom_step (lines : List String) (i : Nat)
    (hi : i < lines.length) :
    parseBlocksFrom lines i =
      if trimSpace (lines.getD i "") = "" then parseBlocksFrom lines (i + 1)
      else if strStartsWith (trimSpace (lines.getD i "")) "//" then
        ⟨"comment", "", lines.getD i "", i, i⟩ :: parseBlocksFrom lines (i + 1)
      else
        match parseBlockAtRel lines i with
        | some (b, r) => b :: parseBlocksFrom lines (i + r + 1)
        | none =>
          ⟨"other", "", lines.getD i "", i, i⟩ :: parseBlocksFrom lines (i + 1) := by
  obtain ⟨m, hl⟩ : ∃ m, lines.length = m + 1 := ⟨lines.length - 1, by omega⟩
  have key : parseBlocksFrom lines i = parseBlocksAux lines (m + 1) i := by
    unfold parseBlocksFrom
    rw [hl]
  rw [key]
  have hm : ∀ k, i + 1 ≤ k → parseBlocksAux lines m k = parseBlocksFrom lines k := by
    intro k hk
    unfold parseBlocksFrom
    apply parseBlocksAux_fuel <;> omega
  simp only [parseBlocksAux]
  rw [if_pos hi]
  by_cases ht : trimSpace (lines.getD i "") = ""
  · rw [if_pos ht, if_pos ht, hm (i + 1) (by omega)]
  · rw [if_neg ht, if_neg ht]
    by_cases hcm : strStartsWith (trimSpace (lines.getD i "")) "//" = true
    · rw [if_pos hcm, if_pos hcm, hm (i + 1) (by omega)]
    · rw [if_neg hcm, if_neg hcm]
      cases hpb : parseBlockAtRel lines i with
      | none =>
        simp only [hpb]
        rw [hm (i + 1) (by omega)]
      | some br =>
        cases br with
        | mk b r =>
          simp only [hpb]
          rw [hm (i + r + 1) (by omega)]

/-- C1 (corrected, amended): when a recognised block declaration at line i
has an opening brace that is never matched before the input ends (the
brace scan exhausts the lines with a non-zero count), no error is raised:
block recognition simply fails, the declaration line degrades to a
one-line other block, and the scan continues with the next line. -/
theorem c1_amended_unmatched_braces_degrade (lines : List String) (i : Nat) (c : Int)
    (hkw : (blockTypes.find? (fun bt =>
        strStartsWith (trimSpace (lines.getD i "")) (bt ++ " "))).isSome = true)
    (hscan : scanBlockLines 0 (lines.drop i) = (none, c)) (hc : c ≠ 0) :
    parseBlockAtRel lines i = none ∧
    (i < lines.length →
      parseBlocksFrom lines i =
        ⟨"other", "", lines.getD i "", i, i⟩ :: parseBlocksFrom lines (i + 1)) := by
  have hnone := parseBlockAtRel_none_unmatched lines i c hscan hc
  refine ⟨hnone, fun hi => ?_⟩
  rw [List.find?_isSome] at hkw
  obtain ⟨bt, hbt, hprop⟩ := hkw
  obtain ⟨hne, hnc⟩ := keyword_line_shape bt hbt _ hprop
  rw [parseBlocksFrom_step lines i hi]
  rw [if_neg hne, if_neg (by simp only [hnc]; simp)]
  simp only [hnone]

/-- C1 amended witness: a one-line model declaration whose brace is never
closed degrades to an other block. -/
theorem c1_amended_wit :
    parseBlockAtRel ["model Foo \x7b"] 0 = none ∧
    (0 < (["model Foo \x7b"] : List String).length →
      parseBlocksFrom ["model Foo \x7b"] 0 =
        ⟨"other", "", (["model Foo \x7b"] : List String).getD 0 "", 0, 0⟩ ::
          parseBlocksFrom ["model Foo \x7b"] (0 + 1)) :=
  c1_amended_unmatched_braces_degrade ["model Foo \x7b"] 0 1 (by decide) (by decide)
    (by decide)

/-- C7 (corrected, amended): keyword recognition succeeds exactly when the
trimmed line begins with one of the four case-sensitive keywords followed
by a space character (not arbitrary whitespace); when recognition fails on
a non-blank, non-comment line, the line is classified as other and the
scanner does not fail. -/
theorem c7_amended_keyword_space_recognition (lines : List String) (i : Nat) :
    ((blockTypes.find? (fun bt =>
        strStartsWith (trimSpace (lines.getD i "")) (bt ++ " "))).isSome = true ↔
      ∃ bt ∈ blockTypes, ∃ rest, trimSpace (lines.getD i "") = bt ++ " " ++ rest) ∧
    (i < lines.length →
      trimSpace (lines.getD i "") ≠ "" →
      strStartsWith (trimSpace (lines.getD i "")) "//" = false →
      blockTypes.find? (fun bt =>
        strStartsWith (trimSpace (lines.getD i "")) (bt ++ " ")) = none →
      parseBlocksFrom lines i =
        ⟨"other", "", lines.getD i "", i, i⟩ :: parseBlocksFrom lines (i + 1)) := by
  constructor
  · rw [List.find?_isSome]
    constructor
    · rintro ⟨bt, hbt, hp⟩
      obtain ⟨r, hr⟩ := (strStartsWith_iff_append _ _).mp hp
      exact ⟨bt, hbt, r, hr⟩
    · rintro ⟨bt, hbt, r, hr⟩
      exact ⟨bt, hbt, (strStartsWith_iff_append _ _).mpr ⟨r, hr⟩⟩
  · intro hi hne hnc hfind
    rw [parseBlocksFrom_step lines i hi]
    rw [if_neg hne, if_neg (by simp only [hnc]; simp)]
    simp only [parseBlockAtRel_none_of_no_keyword lines i hfind]

/-- C7 amended witness: the tab-separated declaration is classified as an
other block by the scanner. -/
theorem c7_amended_wit :
    parseBlocksFrom ["model\tFoo \x7b\x7d"] 0 =
      ⟨"other", "", (["model\tFoo \x7b\x7d"] : List String).getD 0 "", 0, 0⟩ ::
        parseBlocksFrom ["model\tFoo \x7b\x7d"] (0 + 1) :=
  (c7_amended_keyword_space_recognition ["model\tFoo \x7b\x7d"] 0).2 (by decide)
    (by decide) (by decide) (by decide)

/-! ## Reconstruction -/

/-- String append acts as list append on the character data. -/
theorem strData_append (a b : String) : (a ++ b).data = a.data ++ b.data := rfl

/-- Strings with equal character data are equal. -/
theorem strExt {a b : String} (h : a.data = b.data) : a = b :=
  congrArg String.mk h

/-- joinLines on at least two lines prepends the first line and one
newline. -/
theorem joinLines_cons_cons (x y : String) (l : List String) :
    joinLines (x :: y :: l) = x ++ "\n" ++ joinLines (y :: l) := rfl

/-- One step of reconLines on two or more blocks. -/
theorem reconLines_cons_cons (a b : SchemaBlock) (rest : List SchemaBlock) :
    reconLines (a :: b :: rest) =
      if b.type ≠ "comment" ∧ trimSpace b.content ≠ "" then
        a.content :: "" :: reconLines (b :: rest)
      else a.content :: reconLines (b :: rest) := rfl

/-- The reconstruction line list of a non-empty block list is non-empty. -/
theorem reconLines_ne_nil (b : SchemaBlock) (bs : List SchemaBlock) :
    reconLines (b :: bs) ≠ [] := by
  cases bs with
  | nil => simp [reconLines]
  | cons b2 rest =>
    rw [reconLines_cons_cons]
    split <;> simp

/-- C8 (confirmed): reconstruction joins the block texts with single
newlines, inserting exactly one blank line between consecutive blocks
(never after the last) unless the next block is a comment or its trimmed
text is empty, in which case only the newline separates them. -/
theorem c8_reconstruction_separator_rule :
    reconstructSchema [] = "" ∧
    (∀ b : SchemaBlock, reconstructSchema [b] = b.content) ∧
    (∀ (a b : SchemaBlock) (rest : List SchemaBlock),
      reconstructSchema (a :: b :: rest) =
        a.content ++
          (if b.type ≠ "comment" ∧ trimSpace b.content ≠ "" then "\n\n" else "\n") ++
          reconstructSchema (b :: rest)) := by
  refine ⟨rfl, fun b => rfl, fun a b rest => ?_⟩
  have d1 : ("\n\n" : String).data = '\n' :: '\n' :: [] := rfl
  have d2 : ("\n" : String).data = ['\n'] := rfl
  have d3 : ("" : String).data = ([] : List Char) := rfl
  unfold reconstructSchema
  rw [reconLines_cons_cons]
  by_cases hcond : b.type ≠ "comment" ∧ trimSpace b.content ≠ ""
  · rw [if_pos hcond, if_pos hcond]
    cases hR : reconLines (b :: rest) with
    | nil => exact absurd hR (reconLines_ne_nil b rest)
    | cons y ys =>
      rw [joinLines_cons_cons]
      rw [show joinLines ("" :: y :: ys) = "" ++ "\n" ++ joinLines (y :: ys) from rfl]
      apply strExt
      simp [strData_append, d1, d2, d3]
  · rw [if_neg hcond, if_neg hcond]
    cases hR : reconLines (b :: rest) with
    | nil => exact absurd hR (reconLines_ne_nil b rest)
    | cons y ys =>
      rw [joinLines_cons_cons]

/-! ## Characterisation of the brace scan -/

/-- The character loop signals a close exactly when some closing brace
brings the running count to zero. -/
theorem scanLineChars_none_iff (l : List Char) :
    ∀ c : Int, scanLineChars c l = none ↔ lineCloses c l = true := by
  induction l with
  | nil => intro c; simp [scanLineChars, lineCloses]
  | cons ch rest ih =>
    intro c
    unfold scanLineChars lineCloses
    by_cases h1 : ch = '{'
    · rw [if_pos h1, if_pos h1]
      exact ih (c + 1)
    · rw [if_neg h1, if_neg h1]
      by_cases h2 : ch = '}'
      · rw [if_pos h2, if_pos h2]
        by_cases h3 : c - 1 = 0
        · rw [if_pos h3]
          simp [h3]
        · rw [if_neg h3]
          rw [ih (c - 1)]
          simp [h3]
      · rw [if_neg h2, if_neg h2]
        exact ih c

/-- When the character loop survives a line, the resulting count is the
brace delta of the line and the line does not close the block. -/
theorem scanLineChars_some (l : List Char) :
    ∀ (c d : Int), scanLineChars c l = some d →
      d = lineDelta c l ∧ lineCloses c l = false := by
  induction l with
  | nil =>
    intro c d h
    simp [scanLineChars] at h
    simp [lineDelta, lineCloses, h.symm]
  | cons ch rest ih =>
    intro c d h
    unfold scanLineChars at h
    unfold lineDelta lineCloses
    by_cases h1 : ch = '{'
    · rw [if_pos h1] at h
      rw [if_pos h1, if_pos h1]
      exact ih (c + 1) d h
    · rw [if_neg h1] at h
      rw [if_neg h1, if_neg h1]
      by_cases h2 : ch = '}'
      · rw [if_pos h2] at h
        rw [if_pos h2, if_pos h2]
        by_cases h3 : c - 1 = 0
        · rw [if_pos h3] at h
          exact absurd h (by simp)
        · rw [if_neg h3] at h
          have := ih (c - 1) d h
          simp [h3, this.1, this.2]
      · rw [if_neg h2] at h
        rw [if_neg h2, if_neg h2]
        exact ih c d h

/-- When the line loop reports a goto close at relative index r, line r is
the first line on which a closing brace brings the cumulative count to
zero: line r closes at the accumulated count, and no earlier line does. -/
theorem scanBlockLines_closed (ls : List String) :
    ∀ (c : Int) (r : Nat), (scanBlockLines c ls).1 = some r →
      (∃ l, ls.get? r = some l ∧
        lineCloses (cumCount c (ls.take r)) l.data = true) ∧
      (∀ q l, q < r → ls.get? q = some l →
        lineCloses (cumCount c (ls.take q)) l.data = false) := by
  induction ls with
  | nil => intro c r h; simp [scanBlockLines] at h
  | cons l rest ih =>
    intro c r h
    unfold scanBlockLines at h
    split at h
    · rename_i hsl
      have hr : r = 0 := by simpa using h.symm
      subst hr
      refine ⟨⟨l, rfl, ?_⟩, ?_⟩
      · exact (scanLineChars_none_iff l.data c).mp hsl
      · intro q l' hq _
        exact absurd hq (by omega)
    · rename_i c2 hsl
      split at h
      · rename_i r2 snd heq
        have hr : r = r2 + 1 := by simpa using h.symm
        subst hr
        obtain ⟨hd, hcl⟩ := scanLineChars_some l.data c c2 hsl
        have ihh := ih c2 r2 (by rw [heq])
        constructor
        · obtain ⟨l2, hget, hclose⟩ := ihh.1
          refine ⟨l2, by simpa using hget, ?_⟩
          rw [show (l :: rest).take (r2 + 1) = l :: rest.take r2 from rfl]
          rw [show cumCount c (l :: rest.take r2) =
            cumCount (lineDelta c l.data) (rest.take r2) from rfl]
          rw [← hd]
          exact hclose
        · intro q l' hq hget
          cases q with
          | zero =>
            have hl : l' = l := by simpa using hget.symm
            subst hl
            exact hcl
          | succ q' =>
            have hrec := ihh.2 q' l' (by omega) (by simpa using hget)
            rw [show (l :: rest).take (q' + 1) = l :: rest.take q' from rfl]
            rw [show cumCount c (l :: rest.take q') =
              cumCount (lineDelta c l.data) (rest.take q') from rfl]
            rw [← hd]
            exact hrec
      · simp at h

/-- C6 (corrected, amended): for a recognised block whose brace scan
closes (some closing brace brings the counter to exactly zero, which is
the condition the Go loop tests, rather than any return of the counter to
zero), the end line is the first line on which that happens, counting
braces anywhere in each line and carrying the count across lines, and the
block text is the exact original lines from the start line through the end
line joined by newlines; in particular a line whose braces close the count
on the start line itself ends the block on that same line. -/
theorem c6_amended_end_line_by_closing_brace (lines : List String) (i : Nat)
    (b : SchemaBlock) (r : Nat)
    (h : parseBlockAtRel lines i = some (b, r))
    (hclose : (scanBlockLines 0 (lines.drop i)).1 = some r) :
    b.startPos = i ∧ b.endPos = i + r ∧
    b.content = joinLines ((lines.drop i).take (r + 1)) ∧
    (∃ l, (lines.drop i).get? r = some l ∧
      lineCloses (cumCount 0 ((lines.drop i).take r)) l.data = true) ∧
    (∀ q l, q < r → (lines.drop i).get? q = some l →
      lineCloses (cumCount 0 ((lines.drop i).take q)) l.data = false) := by
  have hs := parseBlockAtRel_some lines i b r h
  obtain ⟨h1, h2, _, h4⟩ := hs
  rcases h4 with ⟨_, hcont⟩ | ⟨hn, _, _⟩
  · have hch := scanBlockLines_closed (lines.drop i) 0 r hclose
    exact ⟨h1, h2, hcont, hch.1, hch.2⟩
  · rw [hn] at hclose
    exact absurd hclose (by simp)

/-- C6 amended witness: a one-line model block with balanced braces closes
on the start line and keeps exactly that line as its text. -/
theorem c6_amended_wit :
    (⟨"model", "M", "model M \x7b id Int \x7d", 0, 0⟩ : SchemaBlock).startPos = 0 ∧
    (⟨"model", "M", "model M \x7b id Int \x7d", 0, 0⟩ : SchemaBlock).endPos = 0 + 0 ∧
    (⟨"model", "M", "model M \x7b id Int \x7d", 0, 0⟩ : SchemaBlock).content =
      joinLines (((["model M \x7b id Int \x7d"] : List String).drop 0).take (0 + 1)) ∧
    (∃ l, ((["model M \x7b id Int \x7d"] : List String).drop 0).get? 0 = some l ∧
      lineCloses (cumCount 0 (((["model M \x7b id Int \x7d"] : List String).drop 0).take 0))
        l.data = true) ∧
    (∀ q l, q < 0 → ((["model M \x7b id Int \x7d"] : List String).drop 0).get? q = some l →
      lineCloses (cumCount 0 (((["model M \x7b id Int \x7d"] : List String).drop 0).take q))
        l.data = false) :=
  c6_amended_end_line_by_closing_brace ["model M \x7b id Int \x7d"] 0
    ⟨"model", "M", "model M \x7b id Int \x7d", 0, 0⟩ 0 (by decide) (by decide)

/-! ## Coverage of the scanner output -/

/-- Main scanner invariant, by induction on the remaining line count: from
cursor i, every emitted block spans lines inside [i, length); the spans
are strictly increasing; and every line position j in [i, length) lies in
at most one span, in exactly one when the line at j is not blank. -/
theorem parseBlocksFrom_coverage (lines : List String) :
    ∀ (n i : Nat), lines.length - i ≤ n →
      (∀ b ∈ parseBlocksFrom lines i,
          i ≤ b.startPos ∧ b.startPos ≤ b.endPos ∧ b.endPos < lines.length) ∧
      List.Pairwise (fun a b => a.endPos < b.startPos) (parseBlocksFrom lines i) ∧
      (∀ j, i ≤ j → j < lines.length →
        ((parseBlocksFrom lines i).countP
            (fun b => decide (b.startPos ≤ j) && decide (j ≤ b.endPos)) ≤ 1 ∧
          (trimSpace (lines.getD j "") ≠ "" →
            (parseBlocksFrom lines i).countP
              (fun b => decide (b.startPos ≤ j) && decide (j ≤ b.endPos)) = 1))) := by
  intro n
  induction n with
  | zero =>
    intro i hn
    have hi : ¬ i < lines.length := by omega
    rw [parseBlocksFrom_stop lines i hi]
    refine ⟨by simp, by simp, ?_⟩
    intro j hij hj
    exact absurd hj (by omega)
  | succ n ih =>
    intro i hn
    by_cases hi : i < lines.length
    swap
    · rw [parseBlocksFrom_stop lines i hi]
      refine ⟨by simp, by simp, ?_⟩
      intro j hij hj
      exact absurd hj (by omega)
    · rw [parseBlocksFrom_step lines i hi]
      by_cases ht : trimSpace (lines.getD i "") = ""
      · rw [if_pos ht]
        have IH := ih (i + 1) (by omega)
        refine ⟨fun b hb => ?_, IH.2.1, fun j hij hj => ?_⟩
        · have hb2 := IH.1 b hb
          exact ⟨by omega, hb2.2.1, hb2.2.2⟩
        · by_cases hji : i + 1 ≤ j
          · exact IH.2.2 j hji hj
          · have hz : (parseBlocksFrom lines (i + 1)).countP
                (fun b => decide (b.startPos ≤ j) && decide (j ≤ b.endPos)) = 0 := by
              rw [List.countP_eq_zero]
              intro b hb
              have hb2 := (IH.1 b hb).1
              have hlt : ¬ b.startPos ≤ j := by omega
              simp [hlt]
            rw [hz]
            refine ⟨by omega, fun hcon => ?_⟩
            have hj0 : j = i := by omega
            rw [hj0] at hcon
            exact absurd ht hcon
      · rw [if_neg ht]
        by_cases hcm : strStartsWith (trimSpace (lines.getD i "")) "//" = true
        · rw [if_pos hcm]
          have IH := ih (i + 1) (by omega)
          refine ⟨fun b hb => ?_, ?_, fun j hij hj => ?_⟩
          · rcases List.mem_cons.mp hb with hb1 | hb2
            · subst hb1
              exact ⟨le_refl i, le_refl i, hi⟩
            · have hb3 := IH.1 b hb2
              exact ⟨by omega, hb3.2.1, hb3.2.2⟩
          · rw [List.pairwise_cons]
            refine ⟨fun b hb => ?_, IH.2.1⟩
            have := (IH.1 b hb).1
            simpa using by omega
          · rw [List.countP_cons]
            by_cases hji : i + 1 ≤ j
            · have hpf : (decide ((i : Nat) ≤ j) &&
                  decide (j ≤ (i : Nat))) = false := by
                have : ¬ j ≤ i := by omega
                simp [this]
              have IH2 := IH.2.2 j hji hj
              simp only [hpf]
              constructor
              · simpa using IH2.1
              · intro hne
                simpa using IH2.2 hne
            · have hz : (parseBlocksFrom lines (i + 1)).countP
                  (fun b => decide (b.startPos ≤ j) && decide (j ≤ b.endPos)) = 0 := by
                rw [List.countP_eq_zero]
                intro b hb
                have hb2 := (IH.1 b hb).1
                have hlt : ¬ b.startPos ≤ j := by omega
                simp [hlt]
              have hpt : (decide ((i : Nat) ≤ j) && decide (j ≤ (i : Nat))) = true := by
                have h1 : i ≤ j := hij
                have h2 : j ≤ i := by omega
                simp [h1, h2]
              simp [hz, hpt]
        · rw [if_neg hcm]
          cases hpb : parseBlockAtRel lines i with
          | none =>
            simp only [hpb]
            have IH := ih (i + 1) (by omega)
            refine ⟨fun b hb => ?_, ?_, fun j hij hj => ?_⟩
            · rcases List.mem_cons.mp hb with hb1 | hb2
              · subst hb1
                exact ⟨le_refl i, le_refl i, hi⟩
              · have hb3 := IH.1 b hb2
                exact ⟨by omega, hb3.2.1, hb3.2.2⟩
            · rw [List.pairwise_cons]
              refine ⟨fun b hb => ?_, IH.2.1⟩
              have := (IH.1 b hb).1
              simpa using by omega
            · rw [List.countP_cons]
              by_cases hji : i + 1 ≤ j
              · have hpf : (decide ((i : Nat) ≤ j) &&
                    decide (j ≤ (i : Nat))) = false := by
                  have : ¬ j ≤ i := by omega
                  simp [this]
                have IH2 := IH.2.2 j hji hj
                simp only [hpf]
                constructor
                · simpa using IH2.1
                · intro hne
                  simpa using IH2.2 hne
              · have hz : (parseBlocksFrom lines (i + 1)).countP
                    (fun b => decide (b.startPos ≤ j) && decide (j ≤ b.endPos)) = 0 := by
                  rw [List.countP_eq_zero]
                  intro b hb
                  have hb2 := (IH.1 b hb).1
                  have hlt : ¬ b.startPos ≤ j := by omega
                  simp [hlt]
                have hpt : (decide ((i : Nat) ≤ j) && decide (j ≤ (i : Nat))) = true := by
                  have h1 : i ≤ j := hij
                  have h2 : j ≤ i := by omega
                  simp [h1, h2]
                simp [hz, hpt]
          | some br =>
            cases br with
            | mk b r =>
              simp only [hpb]
              have hsp := (parseBlockAtRel_some lines i b r hpb).1
              have hep := (parseBlockAtRel_some lines i b r hpb).2.1
              have hend := parseBlockAtRel_endPos_lt lines i b r hpb
              have IH := ih (i + r + 1) (by omega)
              refine ⟨fun b2 hb => ?_, ?_, fun j hij hj => ?_⟩
              · rcases List.mem_cons.mp hb with hb1 | hb2
                · subst hb1
                  exact ⟨by omega, by omega, by omega⟩
                · have hb3 := IH.1 b2 hb2
                  exact ⟨by omega, hb3.2.1, hb3.2.2⟩
              · rw [List.pairwise_cons]
                refine ⟨fun b2 hb => ?_, IH.2.1⟩
                have := (IH.1 b2 hb).1
                omega
              · rw [List.countP_cons]
                by_cases hji : i + r + 1 ≤ j
                · have hpf : (decide (b.startPos ≤ j) && decide (j ≤ b.endPos)) = false := by
                    have : ¬ j ≤ b.endPos := by omega
                    simp [this]
                  have IH2 := IH.2.2 j hji hj
                  simp only [hpf]
                  constructor
                  · simpa using IH2.1
                  · intro hne
                    simpa using IH2.2 hne
                · have hz : (parseBlocksFrom lines (i + r + 1)).countP
                      (fun b2 => decide (b2.startPos ≤ j) && decide (j ≤ b2.endPos)) = 0 := by
                    rw [List.countP_eq_zero]
                    intro b2 hb
                    have hb2 := (IH.1 b2 hb).1
                    have hlt : ¬ b2.startPos ≤ j := by omega
                    simp [hlt]
                  have hpt : (decide (b.startPos ≤ j) && decide (j ≤ b.endPos)) = true := by
                    have h1 : b.startPos ≤ j := by omega
                    have h2 : j ≤ b.endPos := by omega
                    simp [h1, h2]
                  simp [hz, hpt]

/-- C5 (corrected, amended): the blocks the scanner emits have in-range,
ordered, pairwise-disjoint line spans; every non-blank line of the input
lies in exactly one block span, and every line lies in at most one span,
so the lines outside all spans are exactly the dropped top-level blank
lines.  (Blank lines inside a recognised block span are kept in that
block, as the counterexample shows, so they are not dropped entirely.) -/
theorem c5_amended_range_coverage (p : SchemaParser) :
    (∀ b ∈ (parseBlocks p).1,
        b.startPos ≤ b.endPos ∧ b.endPos < (splitLines p.content).length) ∧
    List.Pairwise (fun a b => a.endPos < b.startPos) (parseBlocks p).1 ∧
    (∀ j, j < (splitLines p.content).length →
      ((parseBlocks p).1.countP
          (fun b => decide (b.startPos ≤ j) && decide (j ≤ b.endPos)) ≤ 1 ∧
        (trimSpace ((splitLines p.content).getD j "") ≠ "" →
          (parseBlocks p).1.countP
            (fun b => decide (b.startPos ≤ j) && decide (j ≤ b.endPos)) = 1))) := by
  have h := parseBlocksFrom_coverage (splitLines p.content)
    (splitLines p.content).length 0 (by omega)
  exact ⟨fun b hb => (h.1 b hb).2, h.2.1, fun j hj => h.2.2 j (by omega) hj⟩

/-- C5 amended witness: on a concrete schema, the non-blank line 1 is
covered by exactly one block span. -/
theorem c5_amended_wit :
    (parseBlocks ⟨"model M \x7b\nid Int\n\x7d\n\ndatasource d \x7b\x7d"⟩).1.countP
      (fun b => decide (b.startPos ≤ 1) && decide (1 ≤ b.endPos)) = 1 :=
  ((c5_amended_range_coverage ⟨"model M \x7b\nid Int\n\x7d\n\ndatasource d \x7b\x7d"⟩).2.2
    1 (by decide)).2 (by decide)

/-! ## Splitting and joining lines -/

/-- Splitting distributes over an embedded newline, at any accumulator. -/
theorem splitLinesAux_append (acc xs ys : List Char) :
    splitLinesAux acc (xs ++ '\n' :: ys) =
      splitLinesAux acc xs ++ splitLinesAux [] ys := by
  induction xs generalizing acc with
  | nil => simp [splitLinesAux]
  | cons c rest ih =>
    by_cases hc : c = '\n'
    · subst hc
      simp [splitLinesAux, ih]
    · simp [splitLinesAux, hc, ih]

/-- Splitting distributes over string concatenation with a newline. -/
theorem splitLines_append_newline (s t : String) :
    splitLines (s ++ "\n" ++ t) = splitLines s ++ splitLines t := by
  unfold splitLines
  have hd : (s ++ "\n" ++ t).data = s.data ++ '\n' :: t.data := by
    rw [strData_append, strData_append]
    simp
  rw [hd]
  exact splitLinesAux_append [] s.data t.data

/-- A newline-free character list splits into the single accumulated
line. -/
theorem splitLinesAux_no_newline (l : List Char) :
    ∀ acc, (∀ c ∈ l, c ≠ '\n') → splitLinesAux acc l = [⟨acc.reverse ++ l⟩] := by
  induction l with
  | nil => intro acc _; simp [splitLinesAux]
  | cons c rest ih =>
    intro acc h
    have hc : ¬ c = '\n' := h c (by simp)
    rw [show splitLinesAux acc (c :: rest) = splitLinesAux (c :: acc) rest from by
      simp [splitLinesAux, hc]]
    rw [ih (c :: acc) (fun x hx => h x (by simp [hx]))]
    simp

/-- A newline-free string is its own single line. -/
theorem splitLines_single (s : String) (h : ∀ c ∈ s.data, c ≠ '\n') :
    splitLines s = [s] := by
  unfold splitLines
  rw [splitLinesAux_no_newline s.data [] h]
  simp

/-- Splitting a join gives the concatenation of the splits. -/
theorem splitLines_join_map (L : List String) (hL : L ≠ []) :
    splitLines (joinLines L) = (L.map splitLines).join := by
  induction L with
  | nil => exact absurd rfl hL
  | cons x rest ih =>
    cases rest with
    | nil => simp [joinLines]
    | cons y r =>
      rw [joinLines_cons_cons, splitLines_append_newline, ih (by simp)]
      simp

/-- Joining newline-free lines and splitting again is the identity. -/
theorem splitLines_join_id (L : List String) (hL : L ≠ [])
    (h : ∀ l ∈ L, ∀ c ∈ l.data, c ≠ '\n') :
    splitLines (joinLines L) = L := by
  rw [splitLines_join_map L hL]
  have hmap : L.map splitLines = L.map (fun l => [l]) := by
    apply List.map_congr_left
    intro l hl
    exact splitLines_single l (h l hl)
  rw [hmap]
  have hj : ∀ (M : List String), (M.map (fun l => [l])).join = M := by
    intro M
    induction M with
    | nil => rfl
    | cons x rest ih => simp [ih]
  exact hj L

/-- Every line splitLines produces is newline-free. -/
theorem splitLinesAux_no_newline_mem (l : List Char) :
    ∀ acc, (∀ c ∈ acc, c ≠ '\n') →
      ∀ s ∈ splitLinesAux acc l, ∀ c ∈ s.data, c ≠ '\n' := by
  induction l with
  | nil =>
    intro acc hacc s hs c hc
    simp [splitLinesAux] at hs
    subst hs
    simp at hc
    exact hacc c (by simpa using hc)
  | cons d rest ih =>
    intro acc hacc s hs c hc
    by_cases hd : d = '\n'
    · subst hd
      simp [splitLinesAux] at hs
      rcases hs with hs | hs
      · subst hs
        simp at hc
        exact hacc c (by simpa using hc)
      · exact ih [] (by simp) s hs c hc
    · rw [show splitLinesAux acc (d :: rest) = splitLinesAux (d :: acc) rest from by
        simp [splitLinesAux, hd]] at hs
      refine ih (d :: acc) ?_ s hs c hc
      intro x hx
      rcases List.mem_cons.mp hx with hx | hx
      · subst hx; exact hd
      · exact hacc x hx

/-- The lines of a split schema are newline-free. -/
theorem splitLines_no_newline (s : String) :
    ∀ l ∈ splitLines s, ∀ c ∈ l.data, c ≠ '\n' := by
  intro l hl
  exact splitLinesAux_no_newline_mem s.data [] (by simp) l hl

/-- Under wellScanned, every recognised block ended by the goto close of
the brace scan. -/
theorem wellScanned_closes (lines : List String)
    (hws : wellScanned lines = true) (i : Nat) (b : SchemaBlock) (r : Nat)
    (h : parseBlockAtRel lines i = some (b, r)) :
    (scanBlockLines 0 (lines.drop i)).1 = some r := by
  have hi := parseBlockAtRel_some_lt lines i _ h
  have hall := List.all_eq_true.mp hws i (List.mem_range.mpr hi)
  unfold blockScanCloses at hall
  rw [h] at hall
  simpa using hall

/-- Dropping from an in-range index exposes the line at that index. -/
theorem drop_cons_getD (lines : List String) (i : Nat) (hi : i < lines.length) :
    lines.drop i = lines.getD i "" :: lines.drop (i + 1) := by
  rw [List.drop_eq_getElem_cons hi]
  congr 1
  rw [List.getD_eq_getElem?_getD, List.getElem?_eq_getElem hi]
  rfl

/-- The line at an in-range index is a member of the line list. -/
theorem getD_mem (lines : List String) (i : Nat) (hi : i < lines.length) :
    lines.getD i "" ∈ lines := by
  rw [List.getD_eq_getElem?_getD, List.getElem?_eq_getElem hi]
  exact List.getElem_mem hi

/-- A comment line (trimmed form starting with the two slashes) is not
empty. -/
theorem comment_line_ne_empty (t : String) (h : strStartsWith t "//" = true) :
    t ≠ "" := by
  have h2 : listIsPre ('/' :: "/".data) t.data = true := h
  obtain ⟨tl, htl, _⟩ := listIsPre_cons h2
  intro he
  rw [he] at htl
  simp at htl

/-- A nonempty list keeps a nonempty prefix under take of a positive
count. -/
theorem take_ne_nil (l : List String) (n : Nat) (hl : l ≠ []) (hn : n ≠ 0) :
    l.take n ≠ [] := by
  cases l with
  | nil => exact absurd rfl hl
  | cons x rest =>
    cases n with
    | zero => exact absurd rfl hn
    | succ m => simp

/-- Under wellScanned, the non-blank lines of all emitted block texts,
concatenated in order, are exactly the non-blank lines of the input from
the cursor on: blank lines are dropped only at top level, and every other
line is carried into exactly one block text verbatim. -/
theorem parseBlocksFrom_nonblank (lines : List String)
    (hnl : ∀ l ∈ lines, ∀ c ∈ l.data, c ≠ '\n')
    (hws : wellScanned lines = true) :
    ∀ (n i : Nat), lines.length - i ≤ n →
      filterNonBlank
          (((parseBlocksFrom lines i).map (fun b => splitLines b.content)).join) =
        filterNonBlank (lines.drop i) := by
  intro n
  induction n with
  | zero =>
    intro i hn
    have hi : ¬ i < lines.length := by omega
    rw [parseBlocksFrom_stop lines i hi]
    rw [List.drop_eq_nil_of_le (by omega)]
    rfl
  | succ n ih =>
    intro i hn
    by_cases hi : i < lines.length
    swap
    · rw [parseBlocksFrom_stop lines i hi]
      rw [List.drop_eq_nil_of_le (by omega)]
      rfl
    · rw [parseBlocksFrom_step lines i hi, drop_cons_getD lines i hi]
      by_cases ht : trimSpace (lines.getD i "") = ""
      · rw [if_pos ht]
        rw [ih (i + 1) (by omega)]
        unfold filterNonBlank
        rw [List.filter_cons]
        rw [if_neg (by rw [bne_iff_ne]; exact not_not_intro ht)]
      · rw [if_neg ht]
        by_cases hcm : strStartsWith (trimSpace (lines.getD i "")) "//" = true
        · rw [if_pos hcm]
          have hsplit : splitLines (lines.getD i "") = [lines.getD i ""] :=
            splitLines_single _ (hnl _ (getD_mem lines i hi))
          simp only [List.map_cons, List.join_cons, hsplit]
          unfold filterNonBlank
          rw [List.filter_append, List.filter_cons]
          have hne : (trimSpace (lines.getD i "") != "") = true := by
            simpa using ht
          simp only [hne, if_true]
          have := ih (i + 1) (by omega)
          unfold filterNonBlank at this
          rw [this]
          rw [List.filter_cons]
          rw [if_pos hne]
          simp
        · rw [if_neg hcm]
          cases hpb : parseBlockAtRel lines i with
          | none =>
            simp only [hpb]
            have hsplit : splitLines (lines.getD i "") = [lines.getD i ""] :=
              splitLines_single _ (hnl _ (getD_mem lines i hi))
            simp only [List.map_cons, List.join_cons, hsplit]
            unfold filterNonBlank
            rw [List.filter_append, List.filter_cons]
            have hne : (trimSpace (lines.getD i "") != "") = true := by
              simpa using ht
            simp only [hne, if_true]
            have := ih (i + 1) (by omega)
            unfold filterNonBlank at this
            rw [this]
            rw [List.filter_cons]
            rw [if_pos hne]
            simp
          | some br =>
            cases br with
            | mk b r =>
              simp only [hpb]
              have hclose := wellScanned_closes lines hws i b r hpb
              have hsome := parseBlockAtRel_some lines i b r hpb
              rcases hsome.2.2.2 with ⟨_, hcont⟩ | ⟨hnone, _, _⟩
              swap
              · rw [hnone] at hclose
                exact absurd hclose (by simp)
              · have hdropne : lines.drop i ≠ [] := by
                  rw [drop_cons_getD lines i hi]
                  simp
                have htake : (lines.drop i).take (r + 1) ≠ [] :=
                  take_ne_nil _ _ hdropne (by omega)
                have hmemnl : ∀ l ∈ (lines.drop i).take (r + 1), ∀ c ∈ l.data, c ≠ '\n' := by
                  intro l hl
                  exact hnl l (List.drop_subset i lines (List.take_subset _ _ hl))
                have hsplit : splitLines b.content = (lines.drop i).take (r + 1) := by
                  rw [hcont]
                  exact splitLines_join_id _ htake hmemnl
                simp only [List.map_cons, List.join_cons, hsplit]
                unfold filterNonBlank
                rw [List.filter_append]
                have hrest := ih (i + r + 1) (by omega)
                unfold filterNonBlank at hrest
                rw [hrest]
                rw [← List.filter_append]
                congr 1
                rw [← drop_cons_getD lines i hi]
                rw [show lines.drop (i + r + 1) = (lines.drop i).drop (r + 1) from by
                  rw [List.drop_drop]
                  congr 1]
                exact List.take_append_drop (r + 1) (lines.drop i)

/-- The separator lines reconstruction inserts are blank, so the non-blank
lines of the reconstruction are exactly those of the block texts. -/
theorem reconLines_nonblank (bs : List SchemaBlock) :
    filterNonBlank (((reconLines bs).map splitLines).join) =
      filterNonBlank ((bs.map (fun b => splitLines b.content)).join) := by
  induction bs with
  | nil => rfl
  | cons a tail ih =>
    cases tail with
    | nil => rfl
    | cons b rest =>
      rw [reconLines_cons_cons]
      by_cases hcond : b.type ≠ "comment" ∧ trimSpace b.content ≠ ""
      · rw [if_pos hcond]
        simp only [List.map_cons, List.join_cons]
        unfold filterNonBlank at ih ⊢
        rw [List.filter_append, List.filter_append, List.filter_append]
        rw [show List.filter (fun l => trimSpace l != "") (splitLines "") = [] from rfl]
        rw [ih]
        simp
      · rw [if_neg hcond]
        simp only [List.map_cons, List.join_cons]
        unfold filterNonBlank at ih ⊢
        rw [List.filter_append, List.filter_append]
        rw [ih]
        simp [List.filter_append]

/-- C9 (corrected, amended): provided every recognised block's braces
close properly (wellScanned) and the schema has exactly one generator
block, which bears the requested name, the pipeline succeeds and its
output agrees with the original schema on the sequence of non-blank
lines, in order; only blank-line layout (dropped top-level blank lines,
inserted blank separators) may differ. -/
theorem c9_amended_nonblank_lines_preserved (p : SchemaParser) (n : String)
    (hws : wellScanned (splitLines p.content) = true)
    (hone : ((parseBlocks p).1.filter (fun b => b.type == "generator")).map
        (fun b => b.name) = [n]) :
    (FilterByGenerator p n).2 = none ∧
    filterNonBlank (splitLines (FilterByGenerator p n).1) =
      filterNonBlank (splitLines p.content) := by
  obtain ⟨g, hgF, hgname⟩ :
      ∃ g, (parseBlocks p).1.filter (fun b => b.type == "generator") = [g] ∧
        g.name = n := by
    cases hF : (parseBlocks p).1.filter (fun b => b.type == "generator") with
    | nil =>
      rw [hF] at hone
      simp at hone
    | cons g gs =>
      rw [hF] at hone
      simp only [List.map_cons, List.cons.injEq] at hone
      obtain ⟨hn1, hn2⟩ := hone
      have hgs : gs = [] := by
        cases gs with
        | nil => rfl
        | cons x xs => simp at hn2
      subst hgs
      exact ⟨g, rfl, hn1⟩
  have hgmem : g ∈ (parseBlocks p).1.filter (fun b => b.type == "generator") := by
    rw [hgF]
    simp
  have hg2 := List.mem_filter.mp hgmem
  have hall : ∀ b ∈ (parseBlocks p).1, b.type = "generator" → b.name = n := by
    intro b hb hbt
    have hbF : b ∈ (parseBlocks p).1.filter (fun b => b.type == "generator") :=
      List.mem_filter.mpr ⟨hb, by simp [hbt]⟩
    rw [hgF] at hbF
    have hbg : b = g := by simpa using hbF
    rw [hbg]
    exact hgname
  have hfound : (filterBlocks (parseBlocks p).1 n).2 = true := by
    rw [filterBlocks_eq]
    simp only [List.any_eq_true]
    exact ⟨g, hg2.1, by simp [hg2.2, hgname]⟩
  have hkeep : (filterBlocks (parseBlocks p).1 n).1 = (parseBlocks p).1 := by
    rw [filterBlocks_eq]
    apply List.filter_eq_self.mpr
    intro b hb
    unfold keepPred
    cases hbt : (b.type == "generator") with
    | false =>
      have hb2 : ¬ b.type = "generator" := by simpa using hbt
      simp [hb2]
    | true =>
      have := hall b hb (by simpa using hbt)
      simp [this]
  have hbne : (parseBlocks p).1 ≠ [] := by
    intro he
    rw [he] at hg2
    exact absurd hg2.1 (List.not_mem_nil g)
  rw [fbg_eq, if_pos hfound]
  refine ⟨rfl, ?_⟩
  rw [hkeep]
  unfold reconstructSchema
  have hrne : reconLines (parseBlocks p).1 ≠ [] := by
    cases hbs : (parseBlocks p).1 with
    | nil => exact absurd hbs hbne
    | cons x xs =>
      exact reconLines_ne_nil x xs
  rw [splitLines_join_map _ hrne]
  rw [reconLines_nonblank]
  have hnb := parseBlocksFrom_nonblank (splitLines p.content)
    (splitLines_no_newline p.content) hws (splitLines p.content).length 0 (by omega)
  rw [List.drop_zero] at hnb
  exact hnb

/-- C9 amended witness: concrete well-scanned schema with a single
generator named g; the pipeline keeps its non-blank lines exactly. -/
theorem c9_amended_wit :
    (FilterByGenerator ⟨"generator g \x7bp\x7d\nmodel M \x7b\nid Int\n\x7d"⟩ "g").2 = none ∧
    filterNonBlank
        (splitLines (FilterByGenerator ⟨"generator g \x7bp\x7d\nmodel M \x7b\nid Int\n\x7d"⟩ "g").1) =
      filterNonBlank (splitLines "generator g \x7bp\x7d\nmodel M \x7b\nid Int\n\x7d") :=
  c9_amended_nonblank_lines_preserved
    ⟨"generator g \x7bp\x7d\nmodel M \x7b\nid Int\n\x7d"⟩ "g" (by decide) (by decide)
